import Mathlib

/-!
# Verification of the ELF fingerprint statistics pipeline

Shallow embedding of the two core scripts of the repository:

* `find-unique-and-duplicate-features.py` — binary identity (`ElfPath`),
  origin counting (`get_num_origins`), uniqueness classification
  (`get_uniq_class`), the `inst_to_locations` accumulation loop and the
  `grouped_by_elf_set` grouping of `generate_dumps`.
* `extract-strings-from-elfs.py` — structural string/symbol extraction
  (`extract_strings_from_elf`) including the UTF-8 decode-with-replacement
  recovery heuristic, and the brute-force section-range attribution of
  `extract_strings_from_blob`.

Python strings are modelled as `List Char` where character-level work is
needed and as `String` for opaque feature values; bytes are `List Nat`;
Python `assert` failures and raised exceptions are modelled by `Option`
(`none` = the program aborts).
-/

namespace ElfStats

/-- `ElfPath` (frozen dataclass): the binary-identity triple, fields kept as
character lists so that the regex-based parser below can be stated over the
same representation. -/
structure ElfPath where
  source_pkg : List Char
  binary_pkg : List Char
  name : List Char
deriving DecidableEq, Repr

/-- `ElfPath.__str__`: `f'{self.source_pkg}/{self.binary_pkg}-{self.name}'`. -/
def ElfPath.str (p : ElfPath) : List Char :=
  p.source_pkg ++ '/' :: (p.binary_pkg ++ '-' :: p.name)

/-- All splittings `(a, b)` of `s` with `s = a ++ b`, longest `a` first:
the order in which a greedy `(.*)` hands candidate prefixes to the rest of
the pattern while backtracking. -/
def prefixesDesc (s : List Char) : List (List Char × List Char) :=
  (List.range (s.length + 1)).map
    (fun k => (s.take (s.length - k), s.drop (s.length - k)))

/-- `.` in a Python regex without `DOTALL` matches anything except `'\n'`;
a `(.*)` group can therefore only capture a newline-free segment. -/
def noNl (l : List Char) : Bool := l.all (fun c => c ≠ '\n')

/-- The escaped literal `_amd64\.deb` inside group 2 of the regex. -/
def amdLit : List Char := "_amd64.deb".toList

/-- Strip an exact literal from the front of a character list (a literal run
inside the regex, e.g. the escaped `_amd64\.deb`). -/
def stripLit : List Char → List Char → Option (List Char)
  | [], rest => some rest
  | _ :: _, [] => none
  | p :: ps, c :: cs => if p = c then stripLit ps cs else none

/-- Backtracking match of the pattern tail `(.*_amd64\.deb)-(.*)` against a
whole string (the part after the literal `/`), returning the captures of
groups 2 and 3.  The inner `.*` of group 2 is greedy, so prefixes are tried
longest first; the final `(.*)` must consume everything that remains. -/
def matchTail2 (s : List Char) : Option (List Char × List Char) :=
  (prefixesDesc s).findSome? (fun ab =>
    if noNl ab.1 then
      match stripLit amdLit ab.2 with
      | some b2 =>
        match stripLit ['-'] b2 with
        | some g3 =>
          if noNl g3 then some (ab.1 ++ amdLit, g3) else none
        | none => none
      | none => none
    else none)

/-- `ElfPath.from_str`: `ELF_PATH_REGEX.fullmatch(s)` for
`ELF_PATH_REGEX = re.compile(r'(.*)/(.*_amd64\.deb)-(.*)')`, with the three
captured groups becoming the fields; `none` models the `AttributeError`
raised when `fullmatch` returns no match. -/
def ElfPath.from_str (s : List Char) : Option ElfPath :=
  (prefixesDesc s).findSome? (fun ab =>
    if noNl ab.1 then
      match stripLit ['/'] ab.2 with
      | some rest =>
        (matchTail2 rest).map (fun g => ElfPath.mk ab.1 g.1 g.2)
      | none => none
    else none)

/-- `NumOrigins` namedtuple. -/
structure NumOrigins where
  num_source_pkgs : Nat
  num_binary_pkgs : Nat
  num_elfs : Nat
deriving DecidableEq, Repr

/-- `get_num_origins`: `num_elfs = len(elf_paths)`,
`num_binary_pkgs = len(set(p.binary_pkg for p in elf_paths))`,
`num_source_pkgs = len(set(p.source_pkg for p in elf_paths))`.
Python `set` cardinality is the length of the deduplicated list. -/
def get_num_origins (elf_paths : List ElfPath) : NumOrigins :=
  { num_source_pkgs := (elf_paths.map ElfPath.source_pkg).dedup.length
    num_binary_pkgs := (elf_paths.map ElfPath.binary_pkg).dedup.length
    num_elfs := elf_paths.length }

/-- `get_uniq_class`: the if/elif chain over the origin counts. -/
def get_uniq_class (n : NumOrigins) : String :=
  if n.num_elfs = 1 then "elf_unique"
  else if n.num_binary_pkgs = 1 then "binary_pkg_unique"
  else if n.num_source_pkgs = 1 then "source_pkg_unique"
  else "not_unique"

end ElfStats

namespace ElfStats

/-! ## C1, C2: classification precedence and identity round-trip -/

lemma mem_prefixesDesc {s : List Char} {ab : List Char × List Char}
    (h : ab ∈ prefixesDesc s) : ab.1 ++ ab.2 = s := by
  unfold prefixesDesc at h
  obtain ⟨k, -, hk⟩ := List.mem_map.mp h
  subst hk
  exact List.take_append_drop _ s

lemma stripLit_eq {p l r : List Char} (h : stripLit p l = some r) :
    l = p ++ r := by
  induction p generalizing l with
  | nil =>
    simp only [stripLit, Option.some.injEq] at h
    simpa using h
  | cons a ps ih =>
    cases l with
    | nil => simp [stripLit] at h
    | cons c cs =>
      by_cases hac : a = c
      · subst hac
        simp only [stripLit, if_pos rfl] at h
        simpa using ih h
      · simp [stripLit, hac] at h

lemma matchTail2_eq {s g2 g3 : List Char} (h : matchTail2 s = some (g2, g3)) :
    g2 ++ '-' :: g3 = s := by
  obtain ⟨ab, hmem, hab⟩ := List.exists_of_findSome?_eq_some h
  have habsum := mem_prefixesDesc hmem
  by_cases hnl : noNl ab.1
  · simp only [if_pos hnl] at hab
    cases hs : stripLit amdLit ab.2 with
    | none => simp [hs] at hab
    | some b2 =>
      simp only [hs] at hab
      cases hs2 : stripLit ['-'] b2 with
      | none => simp [hs2] at hab
      | some g3' =>
        simp only [hs2] at hab
        by_cases hnl3 : noNl g3'
        · simp only [if_pos hnl3, Option.some.injEq, Prod.mk.injEq] at hab
          obtain ⟨h2, h3⟩ := hab
          subst h2; subst h3
          rw [← habsum, stripLit_eq hs, stripLit_eq hs2, List.append_assoc]
          rfl
        · simp [hnl3] at hab
  · simp [hnl] at hab

/-- C2: for every composite path string on which parsing succeeds, rebuilding
`source_pkg + '/' + binary_pkg + '-' + name` yields exactly the original
input: `str(ElfPath.from_str(s)) == s`. -/
theorem elfpath_roundtrip (s : List Char) (p : ElfPath)
    (h : ElfPath.from_str s = some p) : p.str = s := by
  obtain ⟨ab, hmem, hab⟩ := List.exists_of_findSome?_eq_some h
  have habsum := mem_prefixesDesc hmem
  by_cases hnl : noNl ab.1
  · simp only [if_pos hnl] at hab
    cases hb : stripLit ['/'] ab.2 with
    | none => simp [hb] at hab
    | some rest =>
      simp only [hb, Option.map_eq_some'] at hab
      obtain ⟨⟨g2, g3⟩, hg, hp⟩ := hab
      subst hp
      have hrest := matchTail2_eq hg
      simp only [ElfPath.str]
      rw [← habsum, stripLit_eq hb, hrest]
      rfl
  · simp [hnl] at hab

/-- Witness for C2 at a concrete parsed path. -/
theorem elfpath_roundtrip_witness :
    (ElfPath.mk "gdb".toList "gdb_9.1-0ubuntu1_amd64.deb".toList
      "usr/bin/gdb".toList).str =
      "gdb/gdb_9.1-0ubuntu1_amd64.deb-usr/bin/gdb".toList :=
  elfpath_roundtrip _ _ (by decide)

/-- C1: the classification checks `elf_unique`, `binary_pkg_unique`,
`source_pkg_unique`, `not_unique` in strict precedence order, comparing each
count strictly to 1. -/
theorem uniq_class_precedence (n : NumOrigins) :
    (n.num_elfs = 1 → get_uniq_class n = "elf_unique") ∧
    (n.num_elfs ≠ 1 → n.num_binary_pkgs = 1 →
      get_uniq_class n = "binary_pkg_unique") ∧
    (n.num_elfs ≠ 1 → n.num_binary_pkgs ≠ 1 → n.num_source_pkgs = 1 →
      get_uniq_class n = "source_pkg_unique") ∧
    (n.num_elfs ≠ 1 → n.num_binary_pkgs ≠ 1 → n.num_source_pkgs ≠ 1 →
      get_uniq_class n = "not_unique") := by
  refine ⟨?_, ?_, ?_, ?_⟩ <;> intros <;> simp [get_uniq_class, *]

/-- Witness for C1: each branch of the precedence chain at a concrete triple. -/
theorem uniq_class_precedence_witness :
    get_uniq_class ⟨3, 2, 1⟩ = "elf_unique" ∧
    get_uniq_class ⟨2, 1, 3⟩ = "binary_pkg_unique" ∧
    get_uniq_class ⟨1, 2, 3⟩ = "source_pkg_unique" ∧
    get_uniq_class ⟨2, 2, 2⟩ = "not_unique" :=
  ⟨(uniq_class_precedence ⟨3, 2, 1⟩).1 rfl,
   (uniq_class_precedence ⟨2, 1, 3⟩).2.1 (by decide) rfl,
   (uniq_class_precedence ⟨1, 2, 3⟩).2.2.1 (by decide) (by decide) rfl,
   (uniq_class_precedence ⟨2, 2, 2⟩).2.2.2 (by decide) (by decide) (by decide)⟩

end ElfStats

namespace ElfStats

/-! ## C3, C4: the `inst_to_locations` accumulation loop of `generate_dumps`

`inst_to_locations` is a `defaultdict(dict)` mapping a feature value to a
per-feature-type dict of occurrence lists.  It is modelled as a total map
with `[]` standing for an absent `feature_type` key; a present key always
holds a non-empty list, since the Python loop appends to the entry right
after creating it. -/

abbrev LocMap := String → String → List ElfPath

/-- Point update of the nested dict at `(inst, ft)`. -/
def updateLoc (L : LocMap) (inst ft : String) (v : List ElfPath) : LocMap :=
  fun i f => if i = inst ∧ f = ft then v else L i f

/-- The body of `for inst in instances:`: create the entry if absent
(`locations_dict[feature_type] = []`, then the unconditional append), and
skip the append when the entry's last element is already this binary
(`elif locations_dict[feature_type][-1] == elf_path: continue`). -/
def addInstLoc (elf : ElfPath) (cur : List ElfPath) : List ElfPath :=
  match cur.getLast? with
  | some e2 => if e2 = elf then cur else cur ++ [elf]
  | none => cur ++ [elf]

def processInst (elf : ElfPath) (ft : String) (L : LocMap) (inst : String) :
    LocMap :=
  updateLoc L inst ft (addInstLoc elf (L inst ft))

/-- `for feature_type, instances in features_dict.items(): for inst in …`. -/
def processFeatureType (elf : ElfPath) (L : LocMap)
    (p : String × List String) : LocMap :=
  p.2.foldl (processInst elf p.1) L

/-- One iteration of `for elf_path, features_dict in elf_to_features.items()`.
(The separate `elfs_having_feature_type` bookkeeping is not needed by the
claims and is omitted.) -/
def processElf (L : LocMap) (p : ElfPath × List (String × List String)) :
    LocMap :=
  p.2.foldl (processFeatureType p.1) L

/-- The full accumulation loop over the corpus, i.e. the contents of
`inst_to_locations` after the first loop of `generate_dumps`.  The corpus is
the item list of `elf_to_features`, whose keys (binary identities) are
pairwise distinct because they are dict keys. -/
def inst_to_locations (corpus : List (ElfPath × List (String × List String))) :
    LocMap :=
  corpus.foldl processElf (fun _ _ => [])

/-- Invariant between binaries: every occurrence list is duplicate-free and
only mentions already-processed binaries. -/
def LocInv (processed : List ElfPath) (L : LocMap) : Prop :=
  ∀ i f, (L i f).Nodup ∧ ∀ e ∈ L i f, e ∈ processed

/-- Invariant while one binary `elf` is being processed: lists stay
duplicate-free, mention only processed binaries or `elf`, and if `elf` is
present it is the most recent append (the last element). -/
def LocInvStep (processed : List ElfPath) (elf : ElfPath) (L : LocMap) : Prop :=
  ∀ i f, (L i f).Nodup ∧ (∀ x ∈ L i f, x ∈ processed ∨ x = elf) ∧
    (elf ∈ L i f → (L i f).getLast? = some elf)

lemma addInstLoc_step {processed : List ElfPath} {elf : ElfPath}
    {cur : List ElfPath} (h1 : cur.Nodup)
    (h2 : ∀ x ∈ cur, x ∈ processed ∨ x = elf)
    (h3 : elf ∈ cur → cur.getLast? = some elf) :
    (addInstLoc elf cur).Nodup ∧
      (∀ x ∈ addInstLoc elf cur, x ∈ processed ∨ x = elf) ∧
      (elf ∈ addInstLoc elf cur → (addInstLoc elf cur).getLast? = some elf) := by
  unfold addInstLoc
  cases hlast : cur.getLast? with
  | none =>
    have hnil : cur = [] := List.getLast?_eq_none_iff.mp hlast
    subst hnil
    refine ⟨List.nodup_singleton elf, ?_, ?_⟩
    · intro x hx
      simp only [List.nil_append, List.mem_singleton] at hx
      exact Or.inr hx
    · intro _
      simp
  | some e2 =>
    by_cases he : e2 = elf
    · subst he
      simp only [if_pos rfl]
      exact ⟨h1, h2, fun _ => hlast⟩
    · simp only [if_neg he]
      have helfnot : elf ∉ cur := by
        intro hin
        exact he (Option.some.inj (hlast.symm.trans (h3 hin)))
      refine ⟨?_, ?_, ?_⟩
      · exact List.nodup_append.mpr
          ⟨h1, List.nodup_singleton elf, by
            intro x hx hx'
            simp only [List.mem_singleton] at hx'
            exact helfnot (hx' ▸ hx)⟩
      · intro x hx
        rcases List.mem_append.mp hx with hx | hx
        · exact h2 x hx
        · simp only [List.mem_singleton] at hx
          exact Or.inr hx
      · intro _
        exact List.getLast?_concat cur

lemma processInst_inv {processed : List ElfPath} {elf : ElfPath} {ft : String}
    {L : LocMap} (hL : LocInvStep processed elf L) (inst : String) :
    LocInvStep processed elf (processInst elf ft L inst) := by
  intro i f
  unfold processInst updateLoc
  by_cases hif : i = inst ∧ f = ft
  · simp only [if_pos hif]
    obtain ⟨hn, hm, hl⟩ := hL inst ft
    exact addInstLoc_step hn hm hl
  · simp only [if_neg hif]
    exact hL i f

lemma foldl_processInst_inv {processed : List ElfPath} {elf : ElfPath}
    {ft : String} (insts : List String) :
    ∀ {L : LocMap}, LocInvStep processed elf L →
      LocInvStep processed elf (insts.foldl (processInst elf ft) L) := by
  induction insts with
  | nil => intro L hL; exact hL
  | cons a rest ih =>
    intro L hL
    exact ih (processInst_inv hL a)

lemma processFeatureType_inv {processed : List ElfPath} {elf : ElfPath}
    {L : LocMap} (hL : LocInvStep processed elf L)
    (p : String × List String) :
    LocInvStep processed elf (processFeatureType elf L p) :=
  foldl_processInst_inv p.2 hL

lemma foldl_processFeatureType_inv {processed : List ElfPath} {elf : ElfPath}
    (fs : List (String × List String)) :
    ∀ {L : LocMap}, LocInvStep processed elf L →
      LocInvStep processed elf (fs.foldl (processFeatureType elf) L) := by
  induction fs with
  | nil => intro L hL; exact hL
  | cons q rest ih =>
    intro L hL
    exact ih (processFeatureType_inv hL q)

lemma processElf_inv {processed : List ElfPath} {L : LocMap}
    (hL : LocInv processed L)
    (p : ElfPath × List (String × List String)) (hnew : p.1 ∉ processed) :
    LocInv (processed ++ [p.1]) (processElf L p) := by
  have hstep : LocInvStep processed p.1 L := by
    intro i f
    obtain ⟨hn, hm⟩ := hL i f
    refine ⟨hn, fun x hx => Or.inl (hm x hx), fun hin => ?_⟩
    exact absurd (hm _ hin) hnew
  have hfold : LocInvStep processed p.1 (processElf L p) :=
    foldl_processFeatureType_inv p.2 hstep
  intro i f
  obtain ⟨hn, hm, -⟩ := hfold i f
  refine ⟨hn, fun e he => ?_⟩
  rcases hm e he with h | h
  · exact List.mem_append.mpr (Or.inl h)
  · exact List.mem_append.mpr (Or.inr (by simp [h]))

lemma corpus_fold_inv :
    ∀ (corpus : List (ElfPath × List (String × List String)))
      (L : LocMap) (processed : List ElfPath),
      LocInv processed L → (∀ q ∈ corpus, q.1 ∉ processed) →
      (corpus.map Prod.fst).Nodup →
      LocInv (processed ++ corpus.map Prod.fst) (corpus.foldl processElf L) := by
  intro corpus
  induction corpus with
  | nil => intro L processed hL _ _; simpa using hL
  | cons p rest ih =>
    intro L processed hL hfresh hnodup
    simp only [List.map_cons, List.nodup_cons] at hnodup
    have h1 : LocInv (processed ++ [p.1]) (processElf L p) :=
      processElf_inv hL p (hfresh p (List.mem_cons_self p rest))
    have h2 : ∀ q ∈ rest, q.1 ∉ processed ++ [p.1] := by
      intro q hq hmem
      rcases List.mem_append.mp hmem with h | h
      · exact hfresh q (List.mem_cons_of_mem p hq) h
      · simp only [List.mem_singleton] at h
        exact hnodup.1 (h ▸ List.mem_map_of_mem Prod.fst hq)
    have := ih (processElf L p) (processed ++ [p.1]) h1 h2 hnodup.2
    simpa [List.append_assoc] using this

/-- Shared: the accumulated occurrence lists are duplicate-free whenever the
corpus keys are pairwise distinct (as dict keys are). -/
lemma inst_to_locations_nodup_aux
    {corpus : List (ElfPath × List (String × List String))}
    (hk : (corpus.map Prod.fst).Nodup) (inst ft : String) :
    (inst_to_locations corpus inst ft).Nodup := by
  have h0 : LocInv [] (fun _ _ => []) := by
    intro i f
    exact ⟨List.nodup_nil, by simp⟩
  have := corpus_fold_inv corpus (fun _ _ => []) [] h0 (by simp) hk
  exact (this inst ft).1

/-- C3: for every feature instance and feature type, the occurrence list
built by the classifier loop contains each binary at most once (it is
duplicate-free), even when the raw per-binary extraction output repeats a
value; consequently `num_elfs` equals the number of distinct binaries in the
occurrence set. -/
theorem occurrence_list_dedup
    (corpus : List (ElfPath × List (String × List String)))
    (hk : (corpus.map Prod.fst).Nodup) (inst ft : String) :
    (inst_to_locations corpus inst ft).Nodup ∧
      (get_num_origins (inst_to_locations corpus inst ft)).num_elfs =
        (inst_to_locations corpus inst ft).dedup.length := by
  have hnd := inst_to_locations_nodup_aux hk inst ft
  refine ⟨hnd, ?_⟩
  rw [List.dedup_eq_self.mpr hnd]
  rfl

/-- Witness for C3: a corpus where one binary lists `"foo"` twice still
contributes that binary once. -/
theorem occurrence_list_dedup_witness :
    (inst_to_locations
        [(ElfPath.mk "s1".toList "b1".toList "n1".toList,
            [("strings", ["foo", "foo"])]),
         (ElfPath.mk "s2".toList "b2".toList "n2".toList,
            [("strings", ["foo"])])]
        "foo" "strings").Nodup ∧
      (get_num_origins
          (inst_to_locations
            [(ElfPath.mk "s1".toList "b1".toList "n1".toList,
                [("strings", ["foo", "foo"])]),
             (ElfPath.mk "s2".toList "b2".toList "n2".toList,
                [("strings", ["foo"])])]
            "foo" "strings")).num_elfs =
        (inst_to_locations
            [(ElfPath.mk "s1".toList "b1".toList "n1".toList,
                [("strings", ["foo", "foo"])]),
             (ElfPath.mk "s2".toList "b2".toList "n2".toList,
                [("strings", ["foo"])])]
            "foo" "strings").dedup.length :=
  occurrence_list_dedup _ (by decide) "foo" "strings"

end ElfStats

namespace ElfStats

/-- Global mode (`generate_dumps`, `if global_uniqueness:`):
`all_elfs_with_inst = set(itertools.chain.from_iterable(locations_dict.values()))`
and then `get_uniq_class(get_num_origins(all_elfs_with_inst))`; `valueLists`
is `locations_dict.values()` and Python-set formation is `dedup`. -/
def global_uniq_class (valueLists : List (List ElfPath)) : String :=
  get_uniq_class (get_num_origins valueLists.flatten.dedup)

/-- Local mode: `get_uniq_class(get_num_origins(elfs))` for one feature
type's occurrence list. -/
def local_uniq_class (elfs : List ElfPath) : String :=
  get_uniq_class (get_num_origins elfs)

lemma flatten_single {g : String → List ElfPath} {ft : String} :
    ∀ {fts : List String}, fts.Nodup → ft ∈ fts →
      (∀ ft', ft' ≠ ft → g ft' = []) → (fts.map g).flatten = g ft := by
  intro fts
  induction fts with
  | nil => intro _ h; exact absurd h (List.not_mem_nil ft)
  | cons a rest ih =>
    intro hnodup hmem hz
    simp only [List.nodup_cons] at hnodup
    by_cases ha : a = ft
    · subst ha
      have hrest : ∀ x ∈ rest, g x = [] := by
        intro x hx
        exact hz x (fun hxa => hnodup.1 (hxa ▸ hx))
      have : (rest.map g).flatten = [] := by
        rw [List.flatten_eq_nil_iff]
        intro l hl
        obtain ⟨x, hx, hlx⟩ := List.mem_map.mp hl
        exact hlx ▸ hrest x hx
      simp [this]
    · have hmem' : ft ∈ rest := by
        rcases List.mem_cons.mp hmem with h | h
        · exact absurd h.symm ha
        · exact h
      have := ih hnodup.2 hmem' hz
      simp [hz a ha, this]

/-- C4: for a feature instance occurring in exactly one feature type, the
global-mode class (computed from the union of the instance's occurrence
lists over all feature types in `locations_dict`) equals the local-mode
class of that single feature type. -/
theorem mode_equivalence
    (corpus : List (ElfPath × List (String × List String)))
    (hk : (corpus.map Prod.fst).Nodup) (inst ft : String)
    (fts : List String) (hfts : fts.Nodup) (hmem : ft ∈ fts)
    (hone : ∀ ft', ft' ≠ ft → inst_to_locations corpus inst ft' = []) :
    global_uniq_class (fts.map (inst_to_locations corpus inst)) =
      local_uniq_class (inst_to_locations corpus inst ft) := by
  unfold global_uniq_class local_uniq_class
  rw [flatten_single hfts hmem hone,
    List.dedup_eq_self.mpr (inst_to_locations_nodup_aux hk inst ft)]

/-- Witness for C4: a one-binary corpus where `"foo"` is only a string. -/
theorem mode_equivalence_witness :
    global_uniq_class
        (["strings", "defined_functions"].map
          (inst_to_locations
            [(ElfPath.mk "s1".toList "b1".toList "n1".toList,
                [("strings", ["foo"])])] "foo")) =
      local_uniq_class
        (inst_to_locations
          [(ElfPath.mk "s1".toList "b1".toList "n1".toList,
              [("strings", ["foo"])])] "foo" "strings") :=
  mode_equivalence _ (by decide) "foo" "strings" _ (by decide) (by decide)
    (by
      intro ft' hft'
      by_cases h : ft' = "strings"
      · exact absurd h hft'
      · show List.foldl processElf (fun _ _ => []) _ "foo" ft' = []
        simp only [List.foldl_cons, List.foldl_nil, processElf,
          processFeatureType, processInst, updateLoc, addInstLoc]
        simp [h])

end ElfStats

namespace ElfStats

/-! ## C5: `grouped_by_elf_set = defaultdict(lambda: defaultdict(list))`

The classification loop of `generate_dumps` iterates over
`inst_to_locations.items()` (here: an association list `instLocs` whose
keys are pairwise distinct, as dict keys are) and, for every feature type
whose class is `'not_unique'`, appends the instance to
`grouped_by_elf_set[tuple(elfs)][feature_type]`. -/

/-- The uniqueness class the loop body uses for one `(inst, feature_type)`
pair: the once-per-instance global class when `global_uniqueness` is set,
the per-feature-type local class otherwise. -/
def used_uniq_class (globalU : Bool) (ld : List (String × List ElfPath))
    (elfs : List ElfPath) : String :=
  if globalU then global_uniq_class (ld.map Prod.snd)
  else local_uniq_class elfs

/-- Nested-dict view of `grouped_by_elf_set`: occurrence-set key, then
feature type, to the list of grouped instances. -/
abbrev GroupMap := List ElfPath → String → List String

def updateGroup (G : GroupMap) (key : List ElfPath) (ft : String)
    (v : List String) : GroupMap :=
  fun k f => if k = key ∧ f = ft then v else G k f

/-- `if uniq_class == 'not_unique':
grouped_by_elf_set[tuple(elfs)][feature_type].append(inst)`. -/
def addToGroup (globalU : Bool) (inst : String)
    (ld : List (String × List ElfPath)) (G : GroupMap)
    (p : String × List ElfPath) : GroupMap :=
  if used_uniq_class globalU ld p.2 = "not_unique" then
    updateGroup G p.2 p.1 (G p.2 p.1 ++ [inst])
  else G

/-- `for feature_type, elfs in locations_dict.items(): …`. -/
def groupInst (globalU : Bool) (G : GroupMap)
    (q : String × List (String × List ElfPath)) : GroupMap :=
  q.2.foldl (addToGroup globalU q.1 q.2) G

/-- `for inst, locations_dict in inst_to_locations.items(): …`, restricted
to the `grouped_by_elf_set` accumulation. -/
def grouped_by_elf_set (globalU : Bool)
    (instLocs : List (String × List (String × List ElfPath))) : GroupMap :=
  instLocs.foldl (groupInst globalU) (fun _ _ => [])

lemma mem_addToGroup {globalU : Bool} {inst : String}
    {ld : List (String × List ElfPath)} {G : GroupMap}
    {p : String × List ElfPath} {k : List ElfPath} {f : String} {x : String} :
    x ∈ addToGroup globalU inst ld G p k f ↔
      x ∈ G k f ∨ (x = inst ∧ p = (f, k) ∧
        used_uniq_class globalU ld k = "not_unique") := by
  unfold addToGroup updateGroup
  by_cases hcls : used_uniq_class globalU ld p.2 = "not_unique"
  · simp only [if_pos hcls]
    by_cases hkf : k = p.2 ∧ f = p.1
    · obtain ⟨hk, hf⟩ := hkf
      subst hk; subst hf
      rw [if_pos (show p.2 = p.2 ∧ p.1 = p.1 from ⟨rfl, rfl⟩)]
      simp only [List.mem_append, List.mem_singleton]
      constructor
      · rintro (h | h)
        · exact Or.inl h
        · exact Or.inr ⟨h, by simp, hcls⟩
      · rintro (h | ⟨hx, -, -⟩)
        · exact Or.inl h
        · exact Or.inr hx
    · rw [if_neg hkf]
      constructor
      · exact Or.inl
      · rintro (h | ⟨-, hp, -⟩)
        · exact h
        · exact absurd ⟨(by rw [hp]), (by rw [hp])⟩ hkf
  · rw [if_neg hcls]
    constructor
    · exact Or.inl
    · rintro (h | ⟨-, hp, hc⟩)
      · exact h
      · exact absurd (by rw [hp]; exact hc) hcls

lemma mem_foldl_addToGroup {globalU : Bool} {inst : String}
    {ld : List (String × List ElfPath)}
    (ld' : List (String × List ElfPath)) :
    ∀ {G : GroupMap} {k : List ElfPath} {f : String} {x : String},
      x ∈ (ld'.foldl (addToGroup globalU inst ld) G) k f ↔
        x ∈ G k f ∨ (x = inst ∧ (f, k) ∈ ld' ∧
          used_uniq_class globalU ld k = "not_unique") := by
  induction ld' with
  | nil => intro G k f x; simp
  | cons p rest ih =>
    intro G k f x
    simp only [List.foldl_cons]
    rw [ih, mem_addToGroup]
    constructor
    · rintro ((h | ⟨hx, hp, hc⟩) | ⟨hx, hmem, hc⟩)
      · exact Or.inl h
      · exact Or.inr ⟨hx, hp ▸ List.mem_cons_self p rest, hc⟩
      · exact Or.inr ⟨hx, List.mem_cons_of_mem p hmem, hc⟩
    · rintro (h | ⟨hx, hmem, hc⟩)
      · exact Or.inl (Or.inl h)
      · rcases List.mem_cons.mp hmem with h | h
        · exact Or.inl (Or.inr ⟨hx, h.symm, hc⟩)
        · exact Or.inr ⟨hx, h, hc⟩

lemma mem_grouped_fold {globalU : Bool}
    (instLocs : List (String × List (String × List ElfPath))) :
    ∀ {G : GroupMap} {k : List ElfPath} {f : String} {x : String},
      x ∈ (instLocs.foldl (groupInst globalU) G) k f ↔
        x ∈ G k f ∨ ∃ ld, (x, ld) ∈ instLocs ∧ (f, k) ∈ ld ∧
          used_uniq_class globalU ld k = "not_unique" := by
  induction instLocs with
  | nil => intro G k f x; simp
  | cons q rest ih =>
    intro G k f x
    simp only [List.foldl_cons]
    rw [ih]
    unfold groupInst
    rw [mem_foldl_addToGroup]
    constructor
    · rintro ((h | ⟨hx, hmem, hc⟩) | ⟨ld, hld, hmem, hc⟩)
      · exact Or.inl h
      · exact Or.inr ⟨q.2, by rw [hx]; exact List.mem_cons_self q rest, hmem, hc⟩
      · exact Or.inr ⟨ld, List.mem_cons_of_mem q hld, hmem, hc⟩
    · rintro (h | ⟨ld, hld, hmem, hc⟩)
      · exact Or.inl (Or.inl h)
      · rcases List.mem_cons.mp hld with h | h
        · cases h.symm
          exact Or.inl (Or.inr ⟨rfl, hmem, hc⟩)
        · exact Or.inr ⟨ld, h, hmem, hc⟩

/-- In an association list with pairwise-distinct keys, a key determines
its value. -/
lemma assoc_value_unique {α β : Type} {l : List (α × β)} {a : α} {b1 b2 : β}
    (hnd : (l.map Prod.fst).Nodup) (h1 : (a, b1) ∈ l) (h2 : (a, b2) ∈ l) :
    b1 = b2 := by
  induction l with
  | nil => exact absurd h1 (List.not_mem_nil _)
  | cons p rest ih =>
    simp only [List.map_cons, List.nodup_cons] at hnd
    rcases List.mem_cons.mp h1 with hp1 | hp1 <;>
      rcases List.mem_cons.mp h2 with hp2 | hp2
    · rw [← hp2] at hp1
      exact congrArg Prod.snd hp1
    · exfalso
      apply hnd.1
      have ha : p.1 = a := by rw [← hp1]
      rw [ha]
      exact List.mem_map_of_mem Prod.fst hp2
    · exfalso
      apply hnd.1
      have ha : p.1 = a := by rw [← hp2]
      rw [ha]
      exact List.mem_map_of_mem Prod.fst hp1
    · exact ih hnd.2 hp1 hp2

/-- C5: an instance is in the group keyed by an occurrence set and feature
type exactly when that set is its own occurrence list for that feature type
and its class is `'not_unique'`; in particular every `not_unique`-classified
`(instance, feature type)` pair lies in exactly one group, and the groups
cover nothing else. -/
theorem not_unique_grouping (globalU : Bool)
    (instLocs : List (String × List (String × List ElfPath)))
    (hinst : (instLocs.map Prod.fst).Nodup)
    (hft : ∀ q ∈ instLocs, (q.2.map Prod.fst).Nodup) :
    (∀ inst key ft,
      inst ∈ grouped_by_elf_set globalU instLocs key ft ↔
        ∃ ld, (inst, ld) ∈ instLocs ∧ (ft, key) ∈ ld ∧
          used_uniq_class globalU ld key = "not_unique") ∧
    (∀ inst ft k1 k2,
      inst ∈ grouped_by_elf_set globalU instLocs k1 ft →
      inst ∈ grouped_by_elf_set globalU instLocs k2 ft → k1 = k2) := by
  have hmem : ∀ inst key ft,
      inst ∈ grouped_by_elf_set globalU instLocs key ft ↔
        ∃ ld, (inst, ld) ∈ instLocs ∧ (ft, key) ∈ ld ∧
          used_uniq_class globalU ld key = "not_unique" := by
    intro inst key ft
    unfold grouped_by_elf_set
    rw [mem_grouped_fold]
    simp
  refine ⟨hmem, ?_⟩
  intro inst ft k1 k2 h1 h2
  obtain ⟨ld1, hld1, hm1, -⟩ := (hmem inst k1 ft).mp h1
  obtain ⟨ld2, hld2, hm2, -⟩ := (hmem inst k2 ft).mp h2
  have hldeq : ld1 = ld2 := assoc_value_unique hinst hld1 hld2
  subst hldeq
  exact assoc_value_unique (hft (inst, ld1) hld1) hm1 hm2

end ElfStats

namespace ElfStats

/-- Witness for C5: a string spanning two source packages is grouped under
its exact two-binary occurrence set. -/
theorem not_unique_grouping_witness :
    "foo" ∈ grouped_by_elf_set false
        [("foo", [("strings",
          [ElfPath.mk "s1".toList "b1".toList "n1".toList,
           ElfPath.mk "s2".toList "b2".toList "n2".toList])])]
        [ElfPath.mk "s1".toList "b1".toList "n1".toList,
         ElfPath.mk "s2".toList "b2".toList "n2".toList] "strings" :=
  ((not_unique_grouping false
      [("foo", [("strings",
        [ElfPath.mk "s1".toList "b1".toList "n1".toList,
         ElfPath.mk "s2".toList "b2".toList "n2".toList])])]
      (by decide) (by decide)).1 "foo"
    [ElfPath.mk "s1".toList "b1".toList "n1".toList,
     ElfPath.mk "s2".toList "b2".toList "n2".toList] "strings").mpr
    ⟨[("strings",
      [ElfPath.mk "s1".toList "b1".toList "n1".toList,
       ElfPath.mk "s2".toList "b2".toList "n2".toList])],
     by decide, by decide, by decide⟩

end ElfStats

namespace ElfStats

/-! ## Structural extraction (`extract-strings-from-elfs.py`)

### UTF-8 decoding

`bytes.decode('utf-8')` and `bytes.decode('utf-8', errors='replace')` are
modelled by one tokenizer: each step consumes one maximal part of the byte
stream, yielding `some c` for a validly encoded scalar and `none` for a
maximal invalid subpart (which `errors='replace'` renders as one
U+FFFD REPLACEMENT CHARACTER, and strict decoding turns into a
`UnicodeDecodeError`). -/

/-- U+FFFD REPLACEMENT CHARACTER, `'�'`. -/
def replacementChar : Char := Char.ofNat 0xfffd

/-- A UTF-8 continuation byte `10xxxxxx`. -/
def isCont (b : Nat) : Bool := 0x80 ≤ b && b ≤ 0xbf

/-- Decoder state: either between scalars, or inside a multibyte sequence
expecting `k` more continuation bytes, the next of which must lie in
`[lo, hi]` (E0/ED and F0/F4 restrict their second byte, excluding overlong
forms and surrogates, per RFC 3629), with `acc` the partial scalar value. -/
inductive Utf8State where
  | start : Utf8State
  | need (k lo hi acc : Nat) : Utf8State
deriving DecidableEq, Repr

/-- Process one byte from between scalars: the emitted tokens (a decoded
ASCII scalar, or an invalid-subpart marker for a stray continuation byte or
an impossible lead byte) and the successor state. -/
def utf8StartStep (b : Nat) : List (Option Char) × Utf8State :=
  if b < 0x80 then ([some (Char.ofNat b)], Utf8State.start)
  else if 0xc2 ≤ b && b ≤ 0xdf then
    ([], Utf8State.need 1 0x80 0xbf (b - 0xc0))
  else if 0xe0 ≤ b && b ≤ 0xef then
    ([], Utf8State.need 2 (if b = 0xe0 then 0xa0 else 0x80)
      (if b = 0xed then 0x9f else 0xbf) (b - 0xe0))
  else if 0xf0 ≤ b && b ≤ 0xf4 then
    ([], Utf8State.need 3 (if b = 0xf0 then 0x90 else 0x80)
      (if b = 0xf4 then 0x8f else 0xbf) (b - 0xf0))
  else ([none], Utf8State.start)

/-- Process one byte in any state.  A byte that cannot continue the pending
sequence ends a maximal invalid subpart (one `none` token) and is then
reconsidered as a fresh lead byte, matching the `errors='replace'`
substitution of maximal subparts. -/
def utf8DfaStep (s : Utf8State) (b : Nat) : List (Option Char) × Utf8State :=
  match s with
  | Utf8State.start => utf8StartStep b
  | Utf8State.need k lo hi acc =>
    if lo ≤ b && b ≤ hi then
      if k = 1 then
        ([some (Char.ofNat (acc * 0x40 + (b - 0x80)))], Utf8State.start)
      else Prod.mk [] (Utf8State.need (k - 1) 0x80 0xbf (acc * 0x40 + (b - 0x80)))
    else
      ((utf8StartStep b).1.cons none, (utf8StartStep b).2)

/-- Run the decoder; a sequence still pending at end of input is one final
invalid subpart. -/
def utf8DfaRun (s : Utf8State) : List Nat → List (Option Char)
  | [] =>
    match s with
    | Utf8State.start => []
    | Utf8State.need _ _ _ _ => [none]
  | b :: rest =>
    (utf8DfaStep s b).1 ++ utf8DfaRun (utf8DfaStep s b).2 rest

/-- Token stream of a byte run: `some c` per decoded scalar, `none` per
maximal invalid subpart. -/
def utf8DecodeTokens (bs : List Nat) : List (Option Char) :=
  utf8DfaRun Utf8State.start bs

/-- `s.decode('utf-8')` succeeds iff no token is invalid. -/
def utf8DecodeOk (bs : List Nat) : Bool :=
  (utf8DecodeTokens bs).all Option.isSome

/-- `s.decode('utf-8', errors='replace')`: each invalid subpart becomes one
U+FFFD. -/
def utf8DecodeReplace (bs : List Nat) : List Char :=
  (utf8DecodeTokens bs).map (fun t => t.getD replacementChar)

/-- `s.decode('utf-8')`: `none` models the raised `UnicodeDecodeError`. -/
def utf8Decode? (bs : List Nat) : Option (List Char) :=
  if utf8DecodeOk bs then some (utf8DecodeReplace bs) else none

/-- `decoded_s.rfind(c)`: index of the last occurrence, `none` for `-1`. -/
def rfindIdx (c : Char) : List Char → Option Nat
  | [] => none
  | a :: rest =>
    match rfindIdx c rest with
    | some i => some (i + 1)
    | none => if a = c then some 0 else none

/-- The recovery heuristic: keep only the part after the last replacement
character (`decoded_s[repl_ch_idx + 1:]`).  The `none` branch is the
`assert repl_ch_idx != -1` of the source: it is proved unreachable after a
strict-decode failure. -/
def tailAfterLastRepl (cs : List Char) : List Char :=
  match rfindIdx replacementChar cs with
  | some i => cs.drop (i + 1)
  | none => cs

/-- The decoded text the extractor goes on to split into candidates: the
strict decode when it succeeds, otherwise the replace-decode truncated to
the tail after the last replacement character. -/
def decodeRun (bs : List Nat) : List Char :=
  match utf8Decode? bs with
  | some d => d
  | none => tailAfterLastRepl (utf8DecodeReplace bs)

lemma rfindIdx_none {c : Char} :
    ∀ {cs : List Char}, rfindIdx c cs = none → c ∉ cs := by
  intro cs
  induction cs with
  | nil => intro _ h; exact List.not_mem_nil _ h
  | cons a rest ih =>
    intro h hmem
    unfold rfindIdx at h
    cases hr : rfindIdx c rest with
    | some i => simp [hr] at h
    | none =>
      simp only [hr] at h
      by_cases hac : a = c
      · simp [hac] at h
      · rcases List.mem_cons.mp hmem with hx | hx
        · exact hac hx.symm
        · exact ih hr hx

lemma rfindIdx_drop {c : Char} :
    ∀ {cs : List Char} {i : Nat}, rfindIdx c cs = some i →
      c ∉ cs.drop (i + 1) := by
  intro cs
  induction cs with
  | nil => intro i h; simp [rfindIdx] at h
  | cons a rest ih =>
    intro i h
    unfold rfindIdx at h
    cases hr : rfindIdx c rest with
    | some j =>
      simp only [hr, Option.some.injEq] at h
      subst h
      simpa using ih hr
    | none =>
      simp only [hr] at h
      by_cases hac : a = c
      · rw [if_pos hac] at h
        injection h with h0
        subst h0
        simpa using rfindIdx_none hr
      · simp [hac] at h

lemma decode_fail_mem_repl {bs : List Nat} (h : utf8DecodeOk bs = false) :
    replacementChar ∈ utf8DecodeReplace bs := by
  unfold utf8DecodeOk at h
  obtain ⟨t, ht, hns⟩ := List.all_eq_false.mp h
  have htn : t = none := Option.not_isSome_iff_eq_none.mp (by simpa using hns)
  subst htn
  exact List.mem_map.mpr ⟨none, ht, rfl⟩

/-- C7: when strict UTF-8 decoding of a null-separated run fails, the
extractor recovers rather than erroring: the replace-decode contains at
least one replacement character (so the `assert repl_ch_idx != -1` holds),
the text passed on to candidate extraction is exactly the tail after the
last replacement character, and that tail is free of replacement
characters. -/
theorem decode_error_recovery (bs : List Nat)
    (hfail : utf8DecodeOk bs = false) :
    utf8Decode? bs = none ∧
    (∃ i, rfindIdx replacementChar (utf8DecodeReplace bs) = some i ∧
      decodeRun bs = (utf8DecodeReplace bs).drop (i + 1)) ∧
    replacementChar ∉ decodeRun bs := by
  have hnone : utf8Decode? bs = none := by
    unfold utf8Decode?
    rw [hfail]
    rfl
  have hmem := decode_fail_mem_repl hfail
  cases hf : rfindIdx replacementChar (utf8DecodeReplace bs) with
  | none => exact absurd hmem (rfindIdx_none hf)
  | some i =>
    have hrun : decodeRun bs = (utf8DecodeReplace bs).drop (i + 1) := by
      unfold decodeRun
      rw [hnone]
      unfold tailAfterLastRepl
      rw [hf]
    refine ⟨hnone, ⟨i, rfl, hrun⟩, ?_⟩
    rw [hrun]
    exact rfindIdx_drop hf

/-- Witness for C7: one invalid byte `0xff` inside a run. -/
theorem decode_error_recovery_witness :
    utf8Decode? [0x61, 0xff, 0x62, 0x63, 0x64] = none ∧
    (∃ i, rfindIdx replacementChar
        (utf8DecodeReplace [0x61, 0xff, 0x62, 0x63, 0x64]) = some i ∧
      decodeRun [0x61, 0xff, 0x62, 0x63, 0x64] =
        (utf8DecodeReplace [0x61, 0xff, 0x62, 0x63, 0x64]).drop (i + 1)) ∧
    replacementChar ∉ decodeRun [0x61, 0xff, 0x62, 0x63, 0x64] :=
  decode_error_recovery _ (by decide)

end ElfStats

namespace ElfStats

/-! ### Candidate splitting and filtering -/

/-- `STRING_SEPARATOR_REGEX = re.compile(r'[\x00-\x08\x0a-\x1f\x7f�]+')`:
one separator character (note `\x09`, TAB, is not a separator). -/
def stringSepChar (c : Char) : Bool :=
  c.toNat ≤ 0x08 || (0x0a ≤ c.toNat && c.toNat ≤ 0x1f) ||
    c.toNat = 0x7f || c.toNat = 0xfffd

mutual

/-- `re.split` with a one-or-more separator class: accumulate the current
piece until a separator starts a run. -/
def splitRunsAux (p : Char → Bool) (acc : List Char) :
    List Char → List (List Char)
  | [] => [acc.reverse]
  | c :: rest =>
    if p c then acc.reverse :: splitRunsSkip p rest
    else splitRunsAux p (c :: acc) rest

/-- Inside a separator run: swallow separators; a trailing run yields a
final empty piece, as `re.split` does. -/
def splitRunsSkip (p : Char → Bool) : List Char → List (List Char)
  | [] => [[]]
  | c :: rest =>
    if p c then splitRunsSkip p rest
    else splitRunsAux p [c] rest

end

/-- `STRING_SEPARATOR_REGEX.split(decoded_s)`: split on maximal runs of
separator characters, keeping empty pieces at the borders. -/
def splitOnRuns (p : Char → Bool) (cs : List Char) : List (List Char) :=
  splitRunsAux p [] cs

/-- `bytes.split(b'\x00')`: split on every single null byte. -/
def splitOnByte (b : Nat) : List Nat → List (List Nat)
  | [] => [[]]
  | x :: rest =>
    match splitOnByte b rest with
    | [] => [[]]
    | piece :: pieces =>
      if x = b then [] :: piece :: pieces else (x :: piece) :: pieces

/-- One character of Python `str.isspace`: the Unicode whitespace
characters plus the bidirectional-class B/S/WS control characters
(0x1c–0x1f, 0x85). -/
def pyIsSpaceChar (c : Char) : Bool :=
  let n := c.toNat
  n = 0x09 || n = 0x0a || n = 0x0b || n = 0x0c || n = 0x0d ||
  n = 0x1c || n = 0x1d || n = 0x1e || n = 0x1f || n = 0x20 ||
  n = 0x85 || n = 0xa0 || n = 0x1680 || (0x2000 ≤ n && n ≤ 0x200a) ||
  n = 0x2028 || n = 0x2029 || n = 0x202f || n = 0x205f || n = 0x3000

/-- `str.isspace()`: non-empty and all whitespace. -/
def pyIsSpace (cs : List Char) : Bool := !cs.isEmpty && cs.all pyIsSpaceChar

/-- `str.isascii()`. -/
def pyIsAscii (cs : List Char) : Bool := cs.all (fun c => c.toNat ≤ 0x7f)

/-- `decoded_string.translate(STRING_TRANSLATION_TABLE)` with
`STRING_TRANSLATION_TABLE = str.maketrans({'\t': ' '})`. -/
def translateTabs (cs : List Char) : List Char :=
  cs.map (fun c => if c = '\t' then ' ' else c)

/-- `str.isprintable()` restricted to ASCII text, the only case the code
reaches (the call is guarded by `decoded_string.isascii()`): every
character lies in 0x20–0x7e.  Empty strings are printable. -/
def pyIsPrintableAscii (cs : List Char) : Bool :=
  cs.all (fun c => 0x20 ≤ c.toNat && c.toNat ≤ 0x7e)

def STRING_CUTOFF_LENGTH : Nat := 4

/-- The candidate filter of the inner loop, threading the accumulated
`string_literals` and the printed log: drop short or all-whitespace
candidates, accept non-ASCII candidates as-is, accept printable ASCII
(after mapping TAB to space for the test), and log-and-drop non-printable
ASCII. -/
def processCandidate (acc : List String × List String) (cand : List Char) :
    List String × List String :=
  if cand.length < STRING_CUTOFF_LENGTH then acc
  else if pyIsSpace cand then acc
  else if pyIsAscii cand then
    if pyIsPrintableAscii (translateTabs cand) then
      (acc.1 ++ [String.mk cand], acc.2)
    else
      (acc.1,
        acc.2 ++ [String.mk ("Skipping non-printable ASCII string ".toList
          ++ cand)])
  else (acc.1 ++ [String.mk cand], acc.2)

/-- `for s in body.split(b'\x00')`: decode one run (with the recovery
heuristic) and filter its candidates. -/
def processRun (acc : List String × List String) (bs : List Nat) :
    List String × List String :=
  (splitOnRuns stringSepChar (decodeRun bs)).foldl processCandidate acc

/-- Extract string literals from one recognized constant-data section body. -/
def processSectionBody (acc : List String × List String) (body : List Nat) :
    List String × List String :=
  (splitOnByte 0 body).foldl processRun acc

end ElfStats

namespace ElfStats

/-! ### Section and symbol-table model (the externally parsed ELF metadata) -/

/-- The section-type tags the script distinguishes (`Elf.ShType`): program
data, zero-fill, the dynamic symbol table, and everything else. -/
inductive ShType where
  | progbits : ShType
  | nobits : ShType
  | dynsym : ShType
  | sh_other : ShType
deriving DecidableEq, Repr

/-- `Elf.SymbolType`: function, data object, or anything else. -/
inductive SymbolType where
  | func : SymbolType
  | object : SymbolType
  | sym_other : SymbolType
deriving DecidableEq, Repr

/-- `Elf.SymbolBinding`: only `global_symbol` is considered identifying. -/
inductive SymbolBinding where
  | global_symbol : SymbolBinding
  | bind_other : SymbolBinding
deriving DecidableEq, Repr

/-- `Elf.SectionHeaderIdxSpecial`: whether `sh_idx_special` equals the
`undefined` sentinel (imported symbol) or not (defined symbol). -/
inductive ShIdxSpecial where
  | undefined : ShIdxSpecial
  | idx_other : ShIdxSpecial
deriving DecidableEq, Repr

/-- One `.dynsym` entry; `name` is `Option` because the name may be
unresolvable (`entry.name is None`), which the code treats as fatal for
global symbols. -/
structure DynsymEntry where
  name : Option String
  bind : SymbolBinding
  type : SymbolType
  sh_idx_special : ShIdxSpecial
deriving DecidableEq, Repr

/-- One section header.  `body` carries the raw bytes of a program-data
section and `entries` the parsed rows of a dynamic-symbol-table section
(in the source these are two shapes of `header.body`); `ofs_body`/`len_body`
are the on-disk byte range used by the brute-force path. -/
structure SectionHeader where
  name : String
  type : ShType
  body : List Nat
  entries : List DynsymEntry
  ofs_body : Nat
  len_body : Nat
deriving DecidableEq, Repr

/-- The recognized read-only constant-data section names. -/
def RODATA_SECTIONS : List String :=
  [".rodata", ".rodata.str1.1", ".rodata.str1.4", ".rodata.str1.8",
   ".rodata.cst4", ".rodata.cst8", ".rodata.cst16", "rodata"]

/-- The extractor's accumulated output lists plus everything it printed. -/
structure ExtState where
  string_literals : List String
  defined_functions : List String
  undefined_functions : List String
  defined_objects : List String
  undefined_objects : List String
  log : List String
deriving DecidableEq, Repr

def initExtState : ExtState := ⟨[], [], [], [], [], []⟩

/-- One `.dynsym` entry of the symbol loop: skip non-global bindings, abort
on a global symbol with no name (`assert symbol_name is not None`), route
functions and objects by the `undefined` sentinel, and silently ignore
global symbols of any other type. -/
def processDynEntry (st : ExtState) (e : DynsymEntry) : Option ExtState :=
  if e.bind ≠ SymbolBinding.global_symbol then some st
  else
    match e.name with
    | none => none
    | some nm =>
      if e.type = SymbolType.func then
        if e.sh_idx_special = ShIdxSpecial.undefined then
          some { st with undefined_functions := st.undefined_functions ++ [nm] }
        else
          some { st with defined_functions := st.defined_functions ++ [nm] }
      else if e.type = SymbolType.object then
        if e.sh_idx_special = ShIdxSpecial.undefined then
          some { st with undefined_objects := st.undefined_objects ++ [nm] }
        else
          some { st with defined_objects := st.defined_objects ++ [nm] }
      else some st

/-- One iteration of `for header in section_headers`: recognized
constant-data sections are string-scanned (`nobits` ones skipped, any other
type is `assert header.type == Elf.ShType.progbits` → abort); other
sections are consulted only if they are the dynamic symbol table (with
`assert header.name == '.dynsym'`); everything else is ignored with no
output and no log. -/
def processSection (st : ExtState) (h : SectionHeader) : Option ExtState :=
  if RODATA_SECTIONS.contains h.name then
    if h.type = ShType.nobits then some st
    else if h.type = ShType.progbits then
      some { st with
        string_literals :=
          (processSectionBody (st.string_literals, st.log) h.body).1
        log := (processSectionBody (st.string_literals, st.log) h.body).2 }
    else none
  else if h.type = ShType.dynsym then
    if h.name = ".dynsym" then h.entries.foldlM processDynEntry st
    else none
  else some st

/-- `extract_strings_from_elf`, returning the dict literal (an association
list with the five fixed keys, in source order) together with the printed
log; `none` models an `assert` failure. -/
def extract_strings_from_elf (headers : List SectionHeader) :
    Option (List (String × List String) × List String) :=
  (headers.foldlM processSection initExtState).map (fun st =>
    ([("strings", st.string_literals),
      ("defined_functions", st.defined_functions),
      ("undefined_functions", st.undefined_functions),
      ("defined_objects", st.defined_objects),
      ("undefined_objects", st.undefined_objects)], st.log))

end ElfStats

namespace ElfStats

/-- C6: structural extraction of a recognized constant-data section with
body `b"ab\x00hello\x00\x01\x02world\x00"` yields exactly the string
features `"hello"` and `"world"`: `"ab"` is dropped for being shorter than
4, and the control bytes 0x01 0x02 delimit `"world"`. -/
theorem scenario_hello_world :
    extract_strings_from_elf
      [{ name := ".rodata", type := ShType.progbits,
         body := [0x61, 0x62, 0x00, 0x68, 0x65, 0x6c, 0x6c, 0x6f, 0x00,
                  0x01, 0x02, 0x77, 0x6f, 0x72, 0x6c, 0x64, 0x00],
         entries := [], ofs_body := 0, len_body := 17 }] =
      some ([("strings", ["hello", "world"]),
             ("defined_functions", []),
             ("undefined_functions", []),
             ("defined_objects", []),
             ("undefined_objects", [])], []) := by decide

end ElfStats

namespace ElfStats

/-! ## C8: sections with unrecognized `rodata`-like names -/

/-- `l` starts with `needle`. -/
def isPrefixL : List Char → List Char → Bool
  | [], _ => true
  | _ :: _, [] => false
  | a :: more, b :: bs => a = b && isPrefixL more bs

/-- `needle in hay` on strings: some suffix of `hay` starts with `needle`. -/
def containsSub (needle : List Char) : List Char → Bool
  | [] => isPrefixL needle []
  | b :: bs => isPrefixL needle (b :: bs) || containsSub needle bs

/-- C8 counterexample: it is not the case that a successfully processed
binary containing a section whose name is outside `RODATA_SECTIONS` but
contains the substring `"rodata"` produces any report: the extractor's log
output is empty for such a section (the section is skipped with no flag).
Instance: a `.rodata.str1.2` program-data section holding the printable
string `b"hello world!\x00"` is ignored without any log line. -/
theorem rodata_substring_not_flagged :
    ¬ (∀ (headers : List SectionHeader)
        (fts : List (String × List String)) (lg : List String)
        (h : SectionHeader),
        extract_strings_from_elf headers = some (fts, lg) →
        h ∈ headers →
        RODATA_SECTIONS.contains h.name = false →
        containsSub "rodata".toList h.name.toList = true →
        lg ≠ []) := by
  intro hclaim
  exact hclaim
    [{ name := ".rodata.str1.2", type := ShType.progbits,
       body := [0x68, 0x65, 0x6c, 0x6c, 0x6f, 0x20, 0x77, 0x6f, 0x72, 0x6c,
                0x64, 0x21, 0x00],
       entries := [], ofs_body := 0, len_body := 13 }]
    [("strings", []), ("defined_functions", []), ("undefined_functions", []),
     ("defined_objects", []), ("undefined_objects", [])] []
    { name := ".rodata.str1.2", type := ShType.progbits,
      body := [0x68, 0x65, 0x6c, 0x6c, 0x6f, 0x20, 0x77, 0x6f, 0x72, 0x6c,
               0x64, 0x21, 0x00],
      entries := [], ofs_body := 0, len_body := 13 }
    (by decide) (by decide) (by decide) (by decide) rfl

/-- C8 (amended): a section whose name is not in the recognized
`RODATA_SECTIONS` set is skipped by structural extraction even when the
name contains the substring `"rodata"`, with no flag or report of any kind
(the extractor state, including the printed log, is left untouched) —
unless the section's type is the dynamic symbol table, in which case the
normal symbol handling applies. -/
theorem unrecognized_rodata_name_skipped_silently (st : ExtState)
    (h : SectionHeader)
    (hname : RODATA_SECTIONS.contains h.name = false)
    (hsub : containsSub "rodata".toList h.name.toList = true)
    (htype : h.type ≠ ShType.dynsym) :
    processSection st h = some st := by
  unfold processSection
  rw [hname]
  simp [htype]

/-- Witness for the amended C8. -/
theorem unrecognized_rodata_name_skipped_silently_witness :
    processSection initExtState
      { name := ".rodata.str1.2", type := ShType.progbits,
        body := [0x68, 0x69, 0x00], entries := [], ofs_body := 0,
        len_body := 3 } = some initExtState :=
  unrecognized_rodata_name_skipped_silently _ _ (by decide) (by decide)
    (by decide)

end ElfStats

namespace ElfStats

/-! ## C10: output shape and symbol routing of the structural extractor -/

/-- The sections whose entries the symbol loop consumes: type `dynsym`,
reached only when the name is not a recognized constant-data name. -/
def isDynsymSection (h : SectionHeader) : Bool :=
  !RODATA_SECTIONS.contains h.name && decide (h.type = ShType.dynsym)

/-- All dynamic-symbol entries of a binary, in section and entry order. -/
def dynEntriesOf (headers : List SectionHeader) : List DynsymEntry :=
  (headers.filter isDynsymSection).flatMap SectionHeader.entries

/-- The resolved name of an entry (total; the extractor aborts before using
it when a global entry's name is missing). -/
def entryName (e : DynsymEntry) : String := e.name.getD ""

def isGlobalFuncDef (e : DynsymEntry) : Bool :=
  decide (e.bind = SymbolBinding.global_symbol) &&
    decide (e.type = SymbolType.func) &&
    !decide (e.sh_idx_special = ShIdxSpecial.undefined)

def isGlobalFuncUndef (e : DynsymEntry) : Bool :=
  decide (e.bind = SymbolBinding.global_symbol) &&
    decide (e.type = SymbolType.func) &&
    decide (e.sh_idx_special = ShIdxSpecial.undefined)

def isGlobalObjDef (e : DynsymEntry) : Bool :=
  decide (e.bind = SymbolBinding.global_symbol) &&
    decide (e.type = SymbolType.object) &&
    !decide (e.sh_idx_special = ShIdxSpecial.undefined)

def isGlobalObjUndef (e : DynsymEntry) : Bool :=
  decide (e.bind = SymbolBinding.global_symbol) &&
    decide (e.type = SymbolType.object) &&
    decide (e.sh_idx_special = ShIdxSpecial.undefined)

lemma processDynEntry_syms {st st' : ExtState} {e : DynsymEntry}
    (h : processDynEntry st e = some st') :
    st'.defined_functions = st.defined_functions ++
      (if isGlobalFuncDef e then [entryName e] else []) ∧
    st'.undefined_functions = st.undefined_functions ++
      (if isGlobalFuncUndef e then [entryName e] else []) ∧
    st'.defined_objects = st.defined_objects ++
      (if isGlobalObjDef e then [entryName e] else []) ∧
    st'.undefined_objects = st.undefined_objects ++
      (if isGlobalObjUndef e then [entryName e] else []) ∧
    st'.string_literals = st.string_literals ∧ st'.log = st.log := by
  unfold processDynEntry at h
  by_cases hb : e.bind = SymbolBinding.global_symbol
  · simp only [hb, ne_eq, not_true_eq_false, if_false] at h
    cases hn : e.name with
    | none => rw [hn] at h; exact absurd h (by simp)
    | some nm =>
      rw [hn] at h
      have hname : entryName e = nm := by simp [entryName, hn]
      by_cases ht : e.type = SymbolType.func
      · by_cases hu : e.sh_idx_special = ShIdxSpecial.undefined
        · simp only [ht, if_pos rfl, hu] at h
          obtain rfl := Option.some.inj h
          simp [isGlobalFuncDef, isGlobalFuncUndef, isGlobalObjDef,
            isGlobalObjUndef, hb, ht, hu, hname]
        · simp only [ht, if_pos rfl, hu, if_neg hu] at h
          obtain rfl := Option.some.inj h
          simp [isGlobalFuncDef, isGlobalFuncUndef, isGlobalObjDef,
            isGlobalObjUndef, hb, ht, hu, hname]
      · by_cases ht2 : e.type = SymbolType.object
        · by_cases hu : e.sh_idx_special = ShIdxSpecial.undefined
          · simp only [ht, if_neg ht, ht2, if_pos rfl, hu] at h
            obtain rfl := Option.some.inj h
            simp [isGlobalFuncDef, isGlobalFuncUndef, isGlobalObjDef,
              isGlobalObjUndef, hb, ht, ht2, hu, hname]
          · simp only [ht, if_neg ht, ht2, if_pos rfl, hu, if_neg hu] at h
            obtain rfl := Option.some.inj h
            simp [isGlobalFuncDef, isGlobalFuncUndef, isGlobalObjDef,
              isGlobalObjUndef, hb, ht, ht2, hu, hname]
        · simp only [if_neg ht, if_neg ht2] at h
          obtain rfl := Option.some.inj h
          simp [isGlobalFuncDef, isGlobalFuncUndef, isGlobalObjDef,
            isGlobalObjUndef, ht, ht2]
  · simp only [hb, ne_eq, not_false_eq_true, if_true] at h
    obtain rfl := Option.some.inj h
    simp [isGlobalFuncDef, isGlobalFuncUndef, isGlobalObjDef,
      isGlobalObjUndef, hb]

lemma foldlM_processDynEntry {entries : List DynsymEntry} :
    ∀ {st st' : ExtState}, entries.foldlM processDynEntry st = some st' →
      st'.defined_functions = st.defined_functions ++
        (entries.filter isGlobalFuncDef).map entryName ∧
      st'.undefined_functions = st.undefined_functions ++
        (entries.filter isGlobalFuncUndef).map entryName ∧
      st'.defined_objects = st.defined_objects ++
        (entries.filter isGlobalObjDef).map entryName ∧
      st'.undefined_objects = st.undefined_objects ++
        (entries.filter isGlobalObjUndef).map entryName ∧
      st'.string_literals = st.string_literals ∧ st'.log = st.log := by
  induction entries with
  | nil =>
    intro st st' h
    obtain rfl : st = st' := Option.some.inj h
    simp
  | cons e rest ih =>
    intro st st' h
    rw [List.foldlM_cons] at h
    obtain ⟨st1, h1, h2⟩ := Option.bind_eq_some.mp h
    obtain ⟨d1, u1, d2, u2, s1, l1⟩ := processDynEntry_syms h1
    obtain ⟨D1, U1, D2, U2, S1, L1⟩ := ih h2
    refine ⟨?_, ?_, ?_, ?_, S1.trans s1, L1.trans l1⟩ <;>
      simp only [D1, U1, D2, U2, d1, u1, d2, u2, List.filter_cons] <;>
      split <;> simp

lemma dynEntriesOf_cons (h : SectionHeader) (t : List SectionHeader) :
    dynEntriesOf (h :: t) =
      (if isDynsymSection h then h.entries else []) ++ dynEntriesOf t := by
  simp only [dynEntriesOf, List.filter_cons]
  split <;> simp

lemma processSection_syms {st st' : ExtState} {h : SectionHeader}
    (hok : processSection st h = some st') :
    st'.defined_functions = st.defined_functions ++
      ((if isDynsymSection h then h.entries else []).filter
        isGlobalFuncDef).map entryName ∧
    st'.undefined_functions = st.undefined_functions ++
      ((if isDynsymSection h then h.entries else []).filter
        isGlobalFuncUndef).map entryName ∧
    st'.defined_objects = st.defined_objects ++
      ((if isDynsymSection h then h.entries else []).filter
        isGlobalObjDef).map entryName ∧
    st'.undefined_objects = st.undefined_objects ++
      ((if isDynsymSection h then h.entries else []).filter
        isGlobalObjUndef).map entryName := by
  unfold processSection at hok
  by_cases hr : RODATA_SECTIONS.contains h.name = true
  · have hds : isDynsymSection h = false := by
      unfold isDynsymSection
      rw [hr]
      rfl
    rw [if_pos hr] at hok
    by_cases hn : h.type = ShType.nobits
    · rw [if_pos hn] at hok
      obtain rfl := Option.some.inj hok
      simp [hds]
    · rw [if_neg hn] at hok
      by_cases hp : h.type = ShType.progbits
      · rw [if_pos hp] at hok
        obtain rfl := Option.some.inj hok
        simp [hds]
      · rw [if_neg hp] at hok
        exact absurd hok (by simp)
  · rw [if_neg hr] at hok
    rw [Bool.not_eq_true] at hr
    by_cases hd : h.type = ShType.dynsym
    · have hds : isDynsymSection h = true := by
        unfold isDynsymSection
        rw [hr, hd]
        rfl
      rw [if_pos hd] at hok
      by_cases hnm : h.name = ".dynsym"
      · rw [if_pos hnm] at hok
        obtain ⟨D1, U1, D2, U2, -, -⟩ := foldlM_processDynEntry hok
        simp [hds, D1, U1, D2, U2]
      · rw [if_neg hnm] at hok
        exact absurd hok (by simp)
    · have hds : isDynsymSection h = false := by
        unfold isDynsymSection
        simp [hd]
      rw [if_neg hd] at hok
      obtain rfl := Option.some.inj hok
      simp [hds]

lemma foldlM_processSection {headers : List SectionHeader} :
    ∀ {st st' : ExtState}, headers.foldlM processSection st = some st' →
      st'.defined_functions = st.defined_functions ++
        ((dynEntriesOf headers).filter isGlobalFuncDef).map entryName ∧
      st'.undefined_functions = st.undefined_functions ++
        ((dynEntriesOf headers).filter isGlobalFuncUndef).map entryName ∧
      st'.defined_objects = st.defined_objects ++
        ((dynEntriesOf headers).filter isGlobalObjDef).map entryName ∧
      st'.undefined_objects = st.undefined_objects ++
        ((dynEntriesOf headers).filter isGlobalObjUndef).map entryName := by
  induction headers with
  | nil =>
    intro st st' h
    obtain rfl : st = st' := Option.some.inj h
    simp [dynEntriesOf]
  | cons sec rest ih =>
    intro st st' h
    rw [List.foldlM_cons] at h
    obtain ⟨st1, h1, h2⟩ := Option.bind_eq_some.mp h
    obtain ⟨d1, u1, d2, u2⟩ := processSection_syms h1
    obtain ⟨D1, U1, D2, U2⟩ := ih h2
    refine ⟨?_, ?_, ?_, ?_⟩ <;>
      simp [D1, U1, D2, U2, d1, u1, d2, u2, dynEntriesOf_cons,
        List.filter_append, List.map_append, List.append_assoc]

/-- C10: a successful structural extraction always yields exactly the five
feature-type keys, in order, even with no constant-data or symbol-table
sections; and the four symbol lists are exactly the names of the global
function/object entries of the dynamic symbol table, routed by the
`undefined` sentinel — so a global symbol whose type is neither function
nor object is placed in none of the five lists. -/
theorem extractor_output_shape (headers : List SectionHeader)
    (fts : List (String × List String)) (lg : List String)
    (hok : extract_strings_from_elf headers = some (fts, lg)) :
    fts.map Prod.fst = ["strings", "defined_functions",
      "undefined_functions", "defined_objects", "undefined_objects"] ∧
    ∃ strs : List String,
      fts = [("strings", strs),
        ("defined_functions",
          ((dynEntriesOf headers).filter isGlobalFuncDef).map entryName),
        ("undefined_functions",
          ((dynEntriesOf headers).filter isGlobalFuncUndef).map entryName),
        ("defined_objects",
          ((dynEntriesOf headers).filter isGlobalObjDef).map entryName),
        ("undefined_objects",
          ((dynEntriesOf headers).filter isGlobalObjUndef).map entryName)] := by
  unfold extract_strings_from_elf at hok
  obtain ⟨st, hst, heq⟩ := Option.map_eq_some'.mp hok
  injection heq with h1 h2
  subst h1
  obtain ⟨D1, U1, D2, U2⟩ := foldlM_processSection hst
  simp only [initExtState, List.nil_append] at D1 U1 D2 U2
  exact ⟨rfl, st.string_literals, by rw [D1, U1, D2, U2]⟩

/-- Witness for C10: one `.dynsym` section whose entries include a global
function, a global symbol of some other type (routed nowhere), and a
non-global function (skipped). -/
theorem extractor_output_shape_witness :
    ([("strings", ([] : List String)), ("defined_functions", ["f1"]),
      ("undefined_functions", []), ("defined_objects", []),
      ("undefined_objects", [])].map Prod.fst =
      ["strings", "defined_functions", "undefined_functions",
       "defined_objects", "undefined_objects"]) ∧
    ∃ strs : List String,
      [("strings", ([] : List String)), ("defined_functions", ["f1"]),
       ("undefined_functions", []), ("defined_objects", []),
       ("undefined_objects", [])] = [("strings", strs),
        ("defined_functions",
          ((dynEntriesOf
            [{ name := ".dynsym", type := ShType.dynsym, body := [],
               entries := [
                 { name := some "f1", bind := SymbolBinding.global_symbol,
                   type := SymbolType.func,
                   sh_idx_special := ShIdxSpecial.idx_other },
                 { name := some "weird", bind := SymbolBinding.global_symbol,
                   type := SymbolType.sym_other,
                   sh_idx_special := ShIdxSpecial.idx_other },
                 { name := some "loc", bind := SymbolBinding.bind_other,
                   type := SymbolType.func,
                   sh_idx_special := ShIdxSpecial.undefined }],
               ofs_body := 0, len_body := 0 }]).filter
            isGlobalFuncDef).map entryName),
        ("undefined_functions",
          ((dynEntriesOf
            [{ name := ".dynsym", type := ShType.dynsym, body := [],
               entries := [
                 { name := some "f1", bind := SymbolBinding.global_symbol,
                   type := SymbolType.func,
                   sh_idx_special := ShIdxSpecial.idx_other },
                 { name := some "weird", bind := SymbolBinding.global_symbol,
                   type := SymbolType.sym_other,
                   sh_idx_special := ShIdxSpecial.idx_other },
                 { name := some "loc", bind := SymbolBinding.bind_other,
                   type := SymbolType.func,
                   sh_idx_special := ShIdxSpecial.undefined }],
               ofs_body := 0, len_body := 0 }]).filter
            isGlobalFuncUndef).map entryName),
        ("defined_objects",
          ((dynEntriesOf
            [{ name := ".dynsym", type := ShType.dynsym, body := [],
               entries := [
                 { name := some "f1", bind := SymbolBinding.global_symbol,
                   type := SymbolType.func,
                   sh_idx_special := ShIdxSpecial.idx_other },
                 { name := some "weird", bind := SymbolBinding.global_symbol,
                   type := SymbolType.sym_other,
                   sh_idx_special := ShIdxSpecial.idx_other },
                 { name := some "loc", bind := SymbolBinding.bind_other,
                   type := SymbolType.func,
                   sh_idx_special := ShIdxSpecial.undefined }],
               ofs_body := 0, len_body := 0 }]).filter
            isGlobalObjDef).map entryName),
        ("undefined_objects",
          ((dynEntriesOf
            [{ name := ".dynsym", type := ShType.dynsym, body := [],
               entries := [
                 { name := some "f1", bind := SymbolBinding.global_symbol,
                   type := SymbolType.func,
                   sh_idx_special := ShIdxSpecial.idx_other },
                 { name := some "weird", bind := SymbolBinding.global_symbol,
                   type := SymbolType.sym_other,
                   sh_idx_special := ShIdxSpecial.idx_other },
                 { name := some "loc", bind := SymbolBinding.bind_other,
                   type := SymbolType.func,
                   sh_idx_special := ShIdxSpecial.undefined }],
               ofs_body := 0, len_body := 0 }]).filter
            isGlobalObjUndef).map entryName)] :=
  extractor_output_shape
    [{ name := ".dynsym", type := ShType.dynsym, body := [],
       entries := [
         { name := some "f1", bind := SymbolBinding.global_symbol,
           type := SymbolType.func,
           sh_idx_special := ShIdxSpecial.idx_other },
         { name := some "weird", bind := SymbolBinding.global_symbol,
           type := SymbolType.sym_other,
           sh_idx_special := ShIdxSpecial.idx_other },
         { name := some "loc", bind := SymbolBinding.bind_other,
           type := SymbolType.func,
           sh_idx_special := ShIdxSpecial.undefined }],
       ofs_body := 0, len_body := 0 }]
    [("strings", []), ("defined_functions", ["f1"]),
     ("undefined_functions", []), ("defined_objects", []),
     ("undefined_objects", [])] [] (by decide)

end ElfStats

namespace ElfStats

/-! ## C9: `extract_strings_from_blob` section ranges and attribution -/

/-- One iteration of the `section_ranges` loop: skip sections with no
on-disk bytes, compute `range(ofs_body, ofs_body + len_body)`, and check
the new range against every previously collected one
(`other.stop <= new.start or new.stop <= other.start`); a violated check is
the `assert` (modelled as `none`), otherwise the `(name, range)` pair is
appended.  (`section_header.name or ''` is modelled by `name` being a
plain string.) -/
def sectionRangeStep (acc : List (String × Nat × Nat)) (h : SectionHeader) :
    Option (List (String × Nat × Nat)) :=
  if h.type = ShType.nobits then some acc
  else if acc.all (fun p =>
      p.2.2 ≤ h.ofs_body || h.ofs_body + h.len_body ≤ p.2.1) then
    some (acc ++ [(h.name, h.ofs_body, h.ofs_body + h.len_body)])
  else none

/-- The `section_ranges` list of `extract_strings_from_blob`; `none` models
the overlapping-sections assertion firing. -/
def buildSectionRanges (headers : List SectionHeader) :
    Option (List (String × Nat × Nat)) :=
  headers.foldlM sectionRangeStep []

/-- `offset in section_range` for `range(start, stop)`. -/
def offsetInRange (r : String × Nat × Nat) (offset : Nat) : Bool :=
  r.2.1 ≤ offset && offset < r.2.2

/-- The linear containment lookup
`next((name for name, rg in section_ranges if offset in rg), '')`. -/
def findSectionName (ranges : List (String × Nat × Nat)) (offset : Nat) :
    String :=
  match ranges.find? (fun r => offsetInRange r offset) with
  | some r => r.1
  | none => ""

/-- The `(name, start, stop)` ranges of all sections with on-disk bytes,
in section order, independent of the assertion. -/
def rangesOf (headers : List SectionHeader) : List (String × Nat × Nat) :=
  (headers.filter (fun h => !decide (h.type = ShType.nobits))).map
    (fun h => (h.name, h.ofs_body, h.ofs_body + h.len_body))

/-- The asserted relation between two section ranges: they do not overlap. -/
def rangesDisjoint (p q : String × Nat × Nat) : Prop :=
  p.2.2 ≤ q.2.1 ∨ q.2.2 ≤ p.2.1

lemma rangesDisjoint_bool {p q : String × Nat × Nat} :
    (p.2.2 ≤ q.2.1 || q.2.2 ≤ p.2.1) = true ↔ rangesDisjoint p q := by
  simp [rangesDisjoint]

lemma rangesOf_cons (h : SectionHeader) (t : List SectionHeader) :
    rangesOf (h :: t) =
      (if h.type = ShType.nobits then [] else
        [(h.name, h.ofs_body, h.ofs_body + h.len_body)]) ++ rangesOf t := by
  simp only [rangesOf, List.filter_cons]
  by_cases hn : h.type = ShType.nobits
  · rw [if_pos hn]
    simp [hn]
  · rw [if_neg hn]
    simp [hn]

lemma buildFrom_sound :
    ∀ (headers : List SectionHeader) (acc rs : List (String × Nat × Nat)),
      headers.foldlM sectionRangeStep acc = some rs →
      rs = acc ++ rangesOf headers ∧
      (∀ a ∈ acc, ∀ b ∈ rangesOf headers, rangesDisjoint a b) ∧
      (rangesOf headers).Pairwise rangesDisjoint := by
  intro headers
  induction headers with
  | nil =>
    intro acc rs h
    obtain rfl : acc = rs := Option.some.inj h
    simp [rangesOf]
  | cons sec t ih =>
    intro acc rs h
    rw [List.foldlM_cons] at h
    obtain ⟨acc1, hstep, hrest⟩ := Option.bind_eq_some.mp h
    unfold sectionRangeStep at hstep
    by_cases hn : sec.type = ShType.nobits
    · rw [if_pos hn] at hstep
      obtain rfl := Option.some.inj hstep
      obtain ⟨h1, h2, h3⟩ := ih _ rs hrest
      rw [rangesOf_cons, if_pos hn]
      exact ⟨by simpa using h1, by simpa using h2, by simpa using h3⟩
    · rw [if_neg hn] at hstep
      by_cases hc : acc.all (fun p =>
          p.2.2 ≤ sec.ofs_body || sec.ofs_body + sec.len_body ≤ p.2.1) = true
      · rw [if_pos hc] at hstep
        obtain rfl := Option.some.inj hstep
        obtain ⟨h1, h2, h3⟩ := ih _ rs hrest
        have hdisj : ∀ a ∈ acc,
            rangesDisjoint a (sec.name, sec.ofs_body,
              sec.ofs_body + sec.len_body) := by
          intro a ha
          exact rangesDisjoint_bool.mp (List.all_eq_true.mp hc a ha)
        rw [rangesOf_cons, if_neg hn]
        refine ⟨by simpa [List.append_assoc] using h1, ?_, ?_⟩
        · intro a ha b hb
          rcases List.mem_append.mp hb with hb | hb
          · simp only [List.mem_singleton] at hb
            exact hb ▸ hdisj a ha
          · exact h2 a (List.mem_append.mpr (Or.inl ha)) b hb
        · simp only [List.singleton_append, List.pairwise_cons]
          refine ⟨?_, h3⟩
          intro b hb
          exact h2 _ (List.mem_append.mpr (Or.inr (List.mem_singleton.mpr rfl)))
            b hb
      · rw [if_neg hc] at hstep
        exact absurd hstep (by simp)

lemma buildFrom_complete :
    ∀ (headers : List SectionHeader) (acc : List (String × Nat × Nat)),
      (∀ a ∈ acc, ∀ b ∈ rangesOf headers, rangesDisjoint a b) →
      (rangesOf headers).Pairwise rangesDisjoint →
      headers.foldlM sectionRangeStep acc = some (acc ++ rangesOf headers) := by
  intro headers
  induction headers with
  | nil =>
    intro acc _ _
    simp [rangesOf]
  | cons sec t ih =>
    intro acc hcross hpw
    rw [List.foldlM_cons]
    unfold sectionRangeStep
    by_cases hn : sec.type = ShType.nobits
    · rw [if_pos hn]
      rw [rangesOf_cons, if_pos hn] at hcross hpw ⊢
      simp only [List.nil_append] at hcross hpw ⊢
      exact ih acc hcross hpw
    · rw [if_neg hn]
      rw [rangesOf_cons, if_neg hn] at hcross hpw ⊢
      simp only [List.singleton_append, List.pairwise_cons] at hpw
      have hc : acc.all (fun p =>
          p.2.2 ≤ sec.ofs_body || sec.ofs_body + sec.len_body ≤ p.2.1) = true := by
        rw [List.all_eq_true]
        intro a ha
        exact rangesDisjoint_bool.mpr
          (hcross a ha _ (List.mem_cons_self _ _))
      rw [if_pos hc]
      have := ih (acc ++ [(sec.name, sec.ofs_body, sec.ofs_body + sec.len_body)])
        (by
          intro a ha b hb
          rcases List.mem_append.mp ha with ha | ha
          · exact hcross a ha b (List.mem_cons_of_mem _ hb)
          · simp only [List.mem_singleton] at ha
            exact ha ▸ hpw.1 b hb)
        hpw.2
      show List.foldlM sectionRangeStep
        (acc ++ [(sec.name, sec.ofs_body, sec.ofs_body + sec.len_body)]) t = _
      rw [this]
      simp

/-- C9: building the brute-force section-range list fails with the
overlapping-sections assertion exactly when two sections with on-disk bytes
have overlapping byte ranges; and when it succeeds, every scanned offset is
attributed to the unique range containing it (ranges are pairwise disjoint,
the linear lookup returns the containing section's name), or to the empty
section name when no range contains it. -/
theorem blob_section_attribution (headers : List SectionHeader) :
    (buildSectionRanges headers = none ↔
      ¬ (rangesOf headers).Pairwise rangesDisjoint) ∧
    (∀ rs, buildSectionRanges headers = some rs → ∀ offset : Nat,
      (∀ r1 ∈ rs, ∀ r2 ∈ rs, offsetInRange r1 offset = true →
        offsetInRange r2 offset = true → r1 = r2) ∧
      (∀ r ∈ rs, offsetInRange r offset = true →
        findSectionName rs offset = r.1) ∧
      ((∀ r ∈ rs, offsetInRange r offset = false) →
        findSectionName rs offset = "")) := by
  have hsymm : Symmetric rangesDisjoint := by
    intro a b hab
    exact hab.symm
  constructor
  · constructor
    · intro hnone hpw
      have := buildFrom_complete headers [] (by simp) hpw
      rw [buildSectionRanges] at hnone
      rw [this] at hnone
      exact absurd hnone (by simp)
    · intro hnpw
      cases hb : buildSectionRanges headers with
      | none => rfl
      | some rs =>
        obtain ⟨-, -, hpw⟩ := buildFrom_sound headers [] rs hb
        exact absurd hpw hnpw
  · intro rs hrs offset
    obtain ⟨h1, -, hpw⟩ := buildFrom_sound headers [] rs hrs
    simp only [List.nil_append] at h1
    subst h1
    have huniq : ∀ r1 ∈ rangesOf headers, ∀ r2 ∈ rangesOf headers,
        offsetInRange r1 offset = true → offsetInRange r2 offset = true →
        r1 = r2 := by
      intro r1 hm1 r2 hm2 ho1 ho2
      by_contra hne
      have hdisj := hpw.forall hsymm hm1 hm2 hne
      simp only [offsetInRange, Bool.and_eq_true, decide_eq_true_eq] at ho1 ho2
      rcases hdisj with hd | hd
      · omega
      · omega
    refine ⟨huniq, ?_, ?_⟩
    · intro r hm ho
      unfold findSectionName
      cases hf : (rangesOf headers).find? (fun r => offsetInRange r offset) with
      | none =>
        exact absurd ho (by simpa using List.find?_eq_none.mp hf r hm)
      | some r' =>
        have hr'mem := List.mem_of_find?_eq_some hf
        have hr'off := List.find?_some hf
        rw [huniq r' hr'mem r hm hr'off ho]
    · intro hall
      unfold findSectionName
      rw [List.find?_eq_none.mpr (fun a ha => by simp [hall a ha])]

/-- Witness for C9: two adjacent non-overlapping sections; offset 5 falls in
the second one and is attributed to it. -/
theorem blob_section_attribution_witness :
    findSectionName [(".text", 0, 4), (".rodata", 4, 8)] 5 = ".rodata" :=
  ((blob_section_attribution
      [{ name := ".text", type := ShType.progbits, body := [], entries := [],
         ofs_body := 0, len_body := 4 },
       { name := ".rodata", type := ShType.progbits, body := [],
         entries := [], ofs_body := 4, len_body := 4 }]).2
    [(".text", 0, 4), (".rodata", 4, 8)] (by decide) 5).2.1
    (".rodata", 4, 8) (by decide) (by decide)

end ElfStats
